import Mathlib

/-!
Shallow embedding of the vite-multi-spa Vite plugin (the variant with
redirect support): pattern compiler, redirect resolver, page resolver,
dev-server request middleware, build emitter and output flattener.

Strings are modelled as `List Char`.  The filesystem (`fs.existsSync`) is a
predicate `List Char → Bool` over absolute paths.  The pieces of host
runtime behaviour the source leans on — anchored JavaScript regex matching,
`String.prototype.replace` substitution patterns, Node's
`path.posix.normalize` / `path.join` — are embedded explicitly below, each
next to the source construct that uses it.
-/

/-- Convert a string literal to the character-list representation used
throughout this development. -/
def s2l (s : String) : List Char := s.data

/-- JavaScript regex word character, the `\w` class: `[A-Za-z0-9_]`. -/
def jsWordChar (c : Char) : Bool := c.isAlpha || c.isDigit || c = '_'

/-- First character of a placeholder name, the `[a-zA-Z_]` class used by the
token regex `(:[a-zA-Z_]\w*)` in the pattern compiler. -/
def jsNameStart (c : Char) : Bool := c.isAlpha || c = '_'

/-- Return the first `some` produced by `f` along the list, or `none`. -/
def firstSome {α β : Type} (f : α → Option β) : List α → Option β
  | [] => none
  | a :: r =>
    match f a with
    | some b => some b
    | none => firstSome f r

/-- The list `[n, n-1, ..., 1]`. -/
def downFrom : Nat → List Nat
  | 0 => []
  | n + 1 => (n + 1) :: downFrom n

/-- The list `[n, n-1, ..., 0]`. -/
def downTo0 : Nat → List Nat
  | 0 => [0]
  | n + 1 => (n + 1) :: downTo0 n

/-- Split accumulator helper for `splitSlash`. -/
def splitSlashGo (cur : List Char) : List Char → List (List Char)
  | [] => [cur.reverse]
  | c :: r =>
    if c = '/' then cur.reverse :: splitSlashGo [] r else splitSlashGo (c :: cur) r

/-- Split a path at every `/`, keeping empty segments (as Node's
`normalizeString` walk does implicitly). -/
def splitSlash (l : List Char) : List (List Char) := splitSlashGo [] l

/-- Segment processing of Node's `normalizeString`: drop empty and `.`
segments, resolve `..` against the accumulated stack; `allowAbove` is true
for relative paths, where leading `..` segments are preserved. -/
def normSegsGo (allowAbove : Bool) : List (List Char) → List (List Char) → List (List Char)
  | acc, [] => acc.reverse
  | acc, s :: rest =>
    if s = [] || s = ['.'] then normSegsGo allowAbove acc rest
    else if s = ['.', '.'] then
      match acc with
      | [] =>
        if allowAbove then normSegsGo allowAbove (s :: []) rest
        else normSegsGo allowAbove [] rest
      | t :: acc' =>
        if t = ['.', '.'] then
          if allowAbove then normSegsGo allowAbove (s :: t :: acc') rest
          else normSegsGo allowAbove (t :: acc') rest
        else normSegsGo allowAbove acc' rest
    else normSegsGo allowAbove (s :: acc) rest

/-- Join segments with `/` separators. -/
def joinSegs : List (List Char) → List Char
  | [] => []
  | [s] => s
  | s :: rest => s ++ '/' :: joinSegs rest

/-- Node's `path.posix.normalize`, used by Vite's `normalizePath` and inside
`path.join`: collapses repeated separators, resolves `.` and `..` segments,
keeps a trailing separator, and returns `.` for the empty path. -/
def posixNormalize (p : List Char) : List Char :=
  if p = [] then ['.']
  else
    let isAbs := p.head? = some '/'
    let trail := p.getLast? = some '/'
    let body := joinSegs (normSegsGo (!isAbs) [] (splitSlash p))
    if body = [] then
      if isAbs then ['/'] else if trail then ['.', '/'] else ['.']
    else
      (if isAbs then '/' :: body else body) ++ (if trail then ['/'] else [])

/-- Node's `path.join(a, b)`: concatenate with a separator, then normalize. -/
def pathJoin2 (a b : List Char) : List Char := posixNormalize (a ++ '/' :: b)

/-- Node's `path.join(a, b, c)`. -/
def pathJoin3 (a b c : List Char) : List Char := posixNormalize (a ++ '/' :: b ++ '/' :: c)

/-- A compiled piece of a redirect pattern.  The source escapes every regex
metacharacter except `*` and `:`, then turns `*` into `(?<splat>.*)` and
`:name` into `(?<name>[^/]+)`; everything else matches literally. -/
inductive RTok where
  | lit : Char → RTok
  | splat : RTok
  | ph : List Char → RTok
deriving DecidableEq, Repr

/-- Fuelled scan of a pattern string into compiled tokens, mirroring the
token regex `(\*)|(:[a-zA-Z_]\w*)` run over the escaped pattern (escaping
only inserts backslashes before metacharacters, so token positions relative
to the surrounding literal text are unchanged). -/
def tokenizeF : Nat → List Char → List RTok
  | 0, _ => []
  | _ + 1, [] => []
  | f + 1, c :: rest =>
    if c = '*' then RTok.splat :: tokenizeF f rest
    else if c = ':' then
      match rest with
      | [] => [RTok.lit ':']
      | d :: r =>
        if jsNameStart d then
          RTok.ph (d :: r.takeWhile jsWordChar) :: tokenizeF f (r.dropWhile jsWordChar)
        else RTok.lit ':' :: tokenizeF f rest
    else RTok.lit c :: tokenizeF f rest

/-- Compile a redirect pattern string into its token list. -/
def tokenize (p : List Char) : List RTok := tokenizeF p.length p

/-- Does the pattern contain a `*` or a `:name` token?  (The complement of
the spec's "pattern with no special tokens".) -/
def hasSpecialTok : List Char → Bool
  | [] => false
  | c :: rest =>
    if c = '*' then true
    else if c = ':' then
      match rest with
      | [] => false
      | d :: _ => if jsNameStart d then true else hasSpecialTok rest
    else hasSpecialTok rest

/-- Name of the wildcard capture group. -/
def splatName : List Char := s2l "splat"

/-- Anchored backtracking match of the compiled regex `^...$` against a
path, returning the named captures in group order on success — the
embedding of `url.match(regex)`.  `*` greedily tries the longest capture
first; `:name` greedily tries the longest nonempty run of non-`/`
characters first, exactly as `(?<splat>.*)` and `(?<name>[^/]+)` do. -/
def rmatch : List RTok → List Char → Option (List (List Char × List Char))
  | [], s => if s = [] then some [] else none
  | RTok.lit c :: ts, s =>
    match s with
    | [] => none
    | x :: xs => if x = c then rmatch ts xs else none
  | RTok.splat :: ts, s =>
    firstSome (fun m => (rmatch ts (s.drop m)).map (fun g => (splatName, s.take m) :: g))
      (downTo0 s.length)
  | RTok.ph nm :: ts, s =>
    firstSome (fun m => (rmatch ts (s.drop m)).map (fun g => (nm, s.take m) :: g))
      (downFrom (s.takeWhile (fun c => c ≠ '/')).length)

/-- Named capture groups of a compiled pattern, in order of appearance. -/
def groupNames : List RTok → List (List Char)
  | [] => []
  | RTok.splat :: ts => splatName :: groupNames ts
  | RTok.ph n :: ts => n :: groupNames ts
  | RTok.lit _ :: ts => groupNames ts

/-- Models `new RegExp(regexStr)` at plugin initialization: ECMAScript
rejects a regular expression that declares two named capture groups with
the same name along one alternative, so construction of the matcher
succeeds exactly when the compiled group names are pairwise distinct. -/
def compilePattern (p : List Char) : Option (List RTok) :=
  let ts := tokenize p
  if (groupNames ts).Nodup then some ts else none

/-- ECMAScript `GetSubstitution` for a replacement string: `$$` is a
literal dollar, `$&` the matched text, a dollar followed by a backquote the
text before the match, `$'` the text after it; every other `$` sequence is
literal here because the regex `:name\b` declares no capture groups. -/
def expandDollar (m b a : List Char) : List Char → List Char
  | [] => []
  | c :: r =>
    if c = '$' then
      match r with
      | [] => ['$']
      | d :: r' =>
        if d = '$' then '$' :: expandDollar m b a r'
        else if d = '&' then m ++ expandDollar m b a r'
        else if d = Char.ofNat 96 then b ++ expandDollar m b a r'
        else if d = Char.ofNat 39 then a ++ expandDollar m b a r'
        else '$' :: d :: expandDollar m b a r'
    else c :: expandDollar m b a r

/-- Does the character after a candidate `:name` occurrence satisfy the
`\b` word-boundary (end of string or a non-word character)? -/
def boundaryOk : List Char → Bool
  | [] => true
  | c :: _ => !jsWordChar c

/-- Fuelled scan implementing `subject.replace(new RegExp(":" + name +
"\\b", "g"), v)`: each non-overlapping occurrence of `:name` at a word
boundary is replaced by the `GetSubstitution` expansion of `v`; `pre` holds
the already-scanned original characters in reverse, for the
before-the-match context. -/
def replTokGoF (nm v : List Char) : Nat → List Char → List Char → List Char
  | _, _, [] => []
  | 0, _, l => l
  | f + 1, pre, c :: rest =>
    if c = ':' && nm.isPrefixOf rest && boundaryOk (rest.drop nm.length) then
      expandDollar (':' :: nm) pre.reverse (rest.drop nm.length) v
        ++ replTokGoF nm v f (nm.reverse ++ ':' :: pre) (rest.drop nm.length)
    else c :: replTokGoF nm v f (c :: pre) rest

/-- `subject.replace(new RegExp(":" + name + "\\b", "g"), v)`. -/
def jsReplaceTok (nm v subj : List Char) : List Char :=
  replTokGoF nm v subj.length [] subj

/-- The substitution loop `for (const [name, value] of
Object.entries(match.groups)) result = result.replace(...)`, folding over
the captures in group order. -/
def substGroups (gs : List (List Char × List Char)) (target : List Char) : List Char :=
  gs.foldl (fun acc g => jsReplaceTok g.1 g.2 acc) target

/-- One redirect rule: a pattern string and its target template, in
declaration order within the `redirects` mapping. -/
structure Rule where
  pattern : List Char
  target : List Char

/-- The matcher closure built for each redirect entry: match the compiled
anchored regex against the url; on success substitute every captured group
into the target and normalize the result (`normalizePath`). -/
def ruleMatch (r : Rule) (url : List Char) : Option (List Char) :=
  (rmatch (tokenize r.pattern) url).map (fun g => posixNormalize (substGroups g r.target))

/-- Strip one trailing `.html` suffix: `target.replace(/\.html$/, "")`. -/
def stripHtmlSuffix (l : List Char) : List Char :=
  if (s2l ".html").isSuffixOf l then l.take (l.length - 5) else l

/-- Prefix a `/` when the target does not already start with one:
`target.startsWith("/") ? target : "/" + target`. -/
def withLeadingSlash (l : List Char) : List Char :=
  if l.head? = some '/' then l else '/' :: l

/-- The Page Resolver `resolvePageUrl`: prepend `/` + pagesRoot to the url;
if the candidate ends in `/` probe `<candidate>/index.html` on disk,
otherwise probe `<candidate>.html`; return the candidate page URL exactly
when the probed file exists. -/
def resolvePageUrl (fs : List Char → Bool) (root pagesRoot url : List Char) :
    Option (List Char) :=
  let pageURL := '/' :: (pagesRoot ++ url)
  if pageURL.getLast? = some '/' then
    if fs (pathJoin3 root pageURL (s2l "index.html")) then some pageURL else none
  else if fs (pathJoin2 root (pageURL ++ s2l ".html")) then some pageURL else none

/-- The Redirect Resolver `resolveRedirect`: walk the rules in declaration
order; for the first rule whose matcher yields a truthy target, prefix a
leading slash if needed, strip a trailing `.html` and delegate to the Page
Resolver.  (A matcher result that is the empty string is falsy in the
source's `if (target)` test and falls through to the next rule; the
`normalizePath` applied inside the matcher in fact never produces it.) -/
def resolveRedirect (fs : List Char → Bool) (root pagesRoot : List Char) :
    List Rule → List Char → Option (List Char)
  | [], _ => none
  | r :: rest, url =>
    match ruleMatch r url with
    | some t =>
      if t = [] then resolveRedirect fs root pagesRoot rest url
      else resolvePageUrl fs root pagesRoot (stripHtmlSuffix (withLeadingSlash t))
    | none => resolveRedirect fs root pagesRoot rest url

/-- An incoming dev-server request as the middleware sees it: the raw
`req.url`, the `sec-fetch-dest` header, and the pathname of the `referer`
header (`new URL(req.headers.referer).pathname`, parsed by the host URL
implementation) when that header is present and non-empty. -/
structure Req where
  url : List Char
  secFetchDest : Option (List Char)
  refererPath : Option (List Char)

/-- The destructuring `const [url, query = ""] = req.url.split("?")`: the
text before the first `?`, and the text between the first and second `?`
(anything after a second `?` is in later array slots and is dropped). -/
def splitQ (u : List Char) : List Char × List Char :=
  (u.takeWhile (fun c => c ≠ '?'),
    ((u.dropWhile (fun c => c ≠ '?')).drop 1).takeWhile (fun c => c ≠ '?'))

/-- Reattach a query: `query ? "?" + query : ""`. -/
def qSuffix (q : List Char) : List Char := if q = [] then [] else '?' :: q

/-- `pageUrl.slice(0, pageUrl.lastIndexOf("/"))` for a string containing a
`/` (every resolved page URL starts with one): everything strictly before
the last slash. -/
def dirPart (l : List Char) : List Char :=
  (((l.reverse).dropWhile (fun c => c ≠ '/')).drop 1).reverse

/-- The `configureServer` middleware, as the function from the inbound
request to the final `req.url` it forwards.  Document requests go through
the Redirect Resolver, then the Page Resolver; other destinations with a
referer (and not under `/@vite/`) get page-relative asset resolution with
the on-disk precedence checks. -/
def middleware (fs : List Char → Bool) (root pagesRoot : List Char) (rules : List Rule)
    (req : Req) : List Char :=
  let url := (splitQ req.url).1
  let query := (splitQ req.url).2
  match req.secFetchDest with
  | none => req.url
  | some d =>
    if d = s2l "document" then
      match resolveRedirect fs root pagesRoot rules url with
      | some r => r ++ qSuffix query
      | none =>
        match resolvePageUrl fs root pagesRoot url with
        | some p => p ++ qSuffix query
        | none => req.url
    else if d = [] then req.url
    else
      match req.refererPath with
      | none => req.url
      | some rp =>
        if (s2l "/@vite/").isPrefixOf url = true then req.url
        else
          match (resolveRedirect fs root pagesRoot rules rp).orElse
              (fun _ => resolvePageUrl fs root pagesRoot rp) with
          | none => req.url
          | some pageUrl =>
            if fs (pathJoin2 root url) = true then req.url
            else if fs (pathJoin2 root (dirPart pageUrl ++ url)) = true then
              (dirPart pageUrl ++ url) ++ qSuffix query
            else req.url

/-- Kind of a generated output entry in the `generateBundle` bundle. -/
inductive OutType where
  | asset : OutType
  | chunk : OutType
deriving DecidableEq, Repr

/-- One entry of the output bundle: its kind and its recorded output path
(`file.fileName`). -/
structure OutFile where
  ftype : OutType
  fileName : List Char
deriving DecidableEq, Repr

/-- The body of the `generateBundle` flattening loop for one entry: an
asset whose `fileName` starts with `pagesRoot + "/"` has that prefix (of
length `pagesRoot.length + 1`) sliced off; every other entry is left as
is. -/
def flattenFile (pagesRoot : List Char) (f : OutFile) : OutFile :=
  if f.ftype = OutType.asset ∧ (pagesRoot ++ ['/']).isPrefixOf f.fileName = true then
    ⟨f.ftype, f.fileName.drop (pagesRoot.length + 1)⟩
  else f

/-- The Output Flattener: the `generateBundle` loop over every entry of the
bundle (run on the client build target). -/
def flattenBundle (pagesRoot : List Char) (b : List OutFile) : List OutFile :=
  b.map (flattenFile pagesRoot)

/-- The Build Emitter `buildStart`: `fs.globSync(path.join(root, pagesRoot
+ "/**/*.html"))` over the disk (a list of absolute file paths; `**`
matches zero or more directories, so every `.html` under the pages root is
found), each emitted as a chunk with id `path.relative(root, file)`. -/
def emitIds (disk : List (List Char)) (root pagesRoot : List Char) : List (List Char) :=
  (disk.filter (fun f =>
      ((root ++ '/' :: pagesRoot) ++ ['/']).isPrefixOf f && (s2l ".html").isSuffixOf f)).map
    (fun f => f.drop (root.length + 1))

/-- Modelled from the spec: the host bundler (out of scope per section 1)
materializes each page registered by the Build Emitter as an output asset
whose recorded path is the page's root-relative source path — section 8:
"an emitted output asset at `<pagesRoot>/contact/index.html`". -/
def bundleOfPages (ids : List (List Char)) : List OutFile :=
  ids.map (fun i => ⟨OutType.asset, i⟩)

theorem posixNormalize_ne_nil (p : List Char) : posixNormalize p ≠ [] := by
  simp only [posixNormalize]
  split
  · simp
  · split
    · split
      · simp
      · split <;> simp
    · split <;> simp_all

theorem ruleMatch_ne_nil {r : Rule} {url t : List Char}
    (h : ruleMatch r url = some t) : t ≠ [] := by
  unfold ruleMatch at h
  cases hm : rmatch (tokenize r.pattern) url with
  | none => rw [hm] at h; simp at h
  | some g =>
    rw [hm] at h
    simp only [Option.map_some'] at h
    cases h
    exact posixNormalize_ne_nil _

theorem expandDollar_of_no_dollar (m b a : List Char) (v : List Char)
    (hv : ∀ c ∈ v, c ≠ '$') : expandDollar m b a v = v := by
  induction v with
  | nil => rfl
  | cons c r ih =>
    have hc : c ≠ '$' := hv c (List.mem_cons_self ..)
    have hr : ∀ x ∈ r, x ≠ '$' := fun x hx => hv x (List.mem_cons_of_mem _ hx)
    rw [expandDollar.eq_def]
    simp [hc, ih hr]

theorem rmatch_lit_cons (c : Char) (ts : List RTok) (u : List Char) :
    rmatch (RTok.lit c :: ts) (c :: u) = rmatch ts u := by
  simp [rmatch]

theorem rmatch_ph_only (nm s : List Char) (hne : s ≠ [])
    (hs : ∀ c ∈ s, c ≠ '/') : rmatch [RTok.ph nm] s = some [(nm, s)] := by
  obtain ⟨c, s', rfl⟩ := List.exists_cons_of_ne_nil hne
  have htw : (c :: s').takeWhile (fun x => x ≠ '/') = c :: s' := by
    rw [List.takeWhile_eq_self_iff]
    intro x hx
    simpa using hs x hx
  rw [rmatch, htw]
  simp [downFrom, firstSome, rmatch]

theorem rmatch_lits (l : List Char) :
    ∀ u : List Char, rmatch (l.map RTok.lit) u = if u = l then some [] else none := by
  induction l with
  | nil => intro u; cases u <;> simp [rmatch]
  | cons c l ih =>
    intro u
    cases u with
    | nil => simp [rmatch]
    | cons x xs =>
      rw [List.map_cons, rmatch]
      by_cases hx : x = c
      · subst hx
        simp [ih xs]
      · simp [hx]

theorem tokenizeF_lit : ∀ (f : Nat) (l : List Char), l.length ≤ f →
    hasSpecialTok l = false → tokenizeF f l = l.map RTok.lit := by
  intro f
  induction f with
  | zero =>
    intro l hl _
    have : l = [] := List.eq_nil_of_length_eq_zero (Nat.le_zero.mp hl)
    subst this
    rfl
  | succ f ih =>
    intro l hl hs
    cases l with
    | nil => rfl
    | cons c rest =>
      by_cases hstar : c = '*'
      · subst hstar
        simp [hasSpecialTok] at hs
      · by_cases hcolon : c = ':'
        · subst hcolon
          cases rest with
          | nil => rfl
          | cons d r =>
            cases hd : jsNameStart d with
            | true => simp [hasSpecialTok, hd] at hs
            | false =>
              have hs' : hasSpecialTok (d :: r) = false := by
                simpa [hasSpecialTok, hd] using hs
              have hlen : (d :: r).length ≤ f := by
                simp at hl ⊢
                omega
              simp [tokenizeF, hd, ih (d :: r) hlen hs']
        · have hs' : hasSpecialTok rest = false := by
            simpa [hasSpecialTok, hstar, hcolon] using hs
          have hlen : rest.length ≤ f := by
            simp at hl
            omega
          simp [tokenizeF, hstar, hcolon, ih rest hlen hs']

theorem count_star_le_splat : ∀ (f : Nat) (l : List Char), l.length ≤ f →
    l.count '*' ≤ (groupNames (tokenizeF f l)).count splatName := by
  intro f
  induction f with
  | zero =>
    intro l hl
    have : l = [] := List.eq_nil_of_length_eq_zero (Nat.le_zero.mp hl)
    subst this
    simp
  | succ f ih =>
    intro l hl
    cases l with
    | nil => simp
    | cons c rest =>
      by_cases hstar : c = '*'
      · subst hstar
        have hlen : rest.length ≤ f := by
          simp at hl
          omega
        simp only [tokenizeF, if_pos rfl, groupNames, List.count_cons_self]
        have := ih rest hlen
        omega
      · by_cases hcolon : c = ':'
        · subst hcolon
          cases rest with
          | nil => simp [tokenizeF, groupNames]
          | cons d r =>
            cases hd : jsNameStart d with
            | false =>
              have hlen : (d :: r).length ≤ f := by
                simp at hl ⊢
                omega
              have hc1 : (':' :: d :: r).count '*' = (d :: r).count '*' := by
                rw [List.count_cons]
                simp
              rw [hc1]
              simp only [tokenizeF, hd]
              simp only [if_pos rfl, if_neg (by decide : ¬(':' : Char) = '*'),
                Bool.false_eq_true, if_false, groupNames]
              exact ih (d :: r) hlen
            | true =>
              have hd' : d ≠ '*' := by
                intro h
                rw [h] at hd
                simp [jsNameStart] at hd
              have hlen : (r.dropWhile jsWordChar).length ≤ f := by
                have h1 : (r.dropWhile jsWordChar).length ≤ r.length :=
                  (List.dropWhile_sublist jsWordChar).length_le
                simp at hl
                omega
              have hcr : r.count '*' = (r.dropWhile jsWordChar).count '*' := by
                conv_lhs => rw [← List.takeWhile_append_dropWhile (p := jsWordChar) (l := r)]
                rw [List.count_append]
                have h0 : (r.takeWhile jsWordChar).count '*' = 0 := by
                  rw [List.count_eq_zero]
                  intro hmem
                  have := List.mem_takeWhile_imp hmem
                  simp [jsWordChar] at this
                omega
              have hc1 : (':' :: d :: r).count '*' = r.count '*' := by
                rw [List.count_cons, List.count_cons]
                simp [hd']
              rw [hc1, hcr]
              simp only [tokenizeF, hd]
              simp only [if_pos rfl, if_neg (by decide : ¬(':' : Char) = '*'), if_true,
                groupNames]
              have := ih (r.dropWhile jsWordChar) hlen
              rw [List.count_cons]
              omega
        · have hlen : rest.length ≤ f := by
            simp at hl
            omega
          have hc1 : (c :: rest).count '*' = rest.count '*' := by
            rw [List.count_cons]
            simp [hstar]
          rw [hc1]
          simp only [tokenizeF, if_neg hstar, if_neg hcolon, groupNames]
          exact ih rest hlen

theorem splitSlashGo_no_slash : ∀ (l cur : List Char), (∀ c ∈ l, c ≠ '/') →
    splitSlashGo cur l = [cur.reverse ++ l] := by
  intro l
  induction l with
  | nil =>
    intro cur _
    simp [splitSlashGo]
  | cons c r ih =>
    intro cur h
    have hc : c ≠ '/' := h c (List.mem_cons_self ..)
    have hr : ∀ x ∈ r, x ≠ '/' := fun x hx => h x (List.mem_cons_of_mem _ hx)
    simp only [splitSlashGo, if_neg hc]
    rw [ih (c :: cur) hr]
    simp

theorem posixNormalize_no_slash (p : List Char) (hne : p ≠ [])
    (hs : ∀ c ∈ p, c ≠ '/') (h1 : p ≠ ['.']) (h2 : p ≠ ['.', '.']) :
    posixNormalize p = p := by
  have hsplit : splitSlash p = [p] := by
    rw [splitSlash, splitSlashGo_no_slash p [] hs]
    simp
  have hhead : ¬ p.head? = some '/' := by
    cases p with
    | nil => simp
    | cons c r =>
      simp only [List.head?_cons, Option.some.injEq]
      exact hs c (List.mem_cons_self ..)
  have hlast : ¬ p.getLast? = some '/' := by
    intro h
    rw [List.getLast?_eq_getLast p hne, Option.some.injEq] at h
    exact hs _ (List.getLast_mem hne) h
  have hsegs : normSegsGo (!decide (p.head? = some '/')) [] (splitSlash p) = [p] := by
    rw [hsplit]
    simp [normSegsGo, hne, h1, h2]
  simp only [posixNormalize, if_neg hne, hsegs, joinSegs]
  rw [if_neg hhead, if_neg hlast]
  simp

theorem rmatch_user_pattern (s : List Char) (hne : s ≠ []) (hs : ∀ c ∈ s, c ≠ '/') :
    rmatch (tokenize (s2l "/user/:id")) (s2l "/user/" ++ s) = some [(s2l "id", s)] := by
  have htok : tokenize (s2l "/user/:id") =
      [RTok.lit '/', RTok.lit 'u', RTok.lit 's', RTok.lit 'e', RTok.lit 'r', RTok.lit '/',
        RTok.ph (s2l "id")] := by decide
  rw [htok]
  show rmatch _ ('/' :: 'u' :: 's' :: 'e' :: 'r' :: '/' :: s) = _
  rw [rmatch_lit_cons, rmatch_lit_cons, rmatch_lit_cons, rmatch_lit_cons, rmatch_lit_cons,
    rmatch_lit_cons]
  exact rmatch_ph_only (s2l "id") s hne hs

/-- C7: every compiled redirect pattern matches anchored at both ends with
all non-token characters taken literally; in particular a pattern with no
`*` or `:name` token matches exactly one path, the literal pattern string
itself — the matcher succeeds on a path if and only if the path is the
pattern, so neither proper substrings, proper superstrings, nor
metacharacter-induced variants match. -/
theorem c7_literal_anchored (p u : List Char) (hp : hasSpecialTok p = false) :
    (rmatch (tokenize p) u).isSome = true ↔ u = p := by
  rw [tokenize, tokenizeF_lit p.length p le_rfl hp, rmatch_lits]
  by_cases h : u = p
  · simp [h]
  · simp [h]

/-- Witness for C7 at the pattern `/a.b` (the `.` is a regex metacharacter
treated literally): the pattern matches itself and does not match `/axb`. -/
theorem c7_literal_anchored_witness :
    (rmatch (tokenize (s2l "/a.b")) (s2l "/a.b")).isSome = true ∧
      ¬ (rmatch (tokenize (s2l "/a.b")) (s2l "/axb")).isSome = true := by
  constructor
  · exact (c7_literal_anchored (s2l "/a.b") (s2l "/a.b") (by decide)).mpr rfl
  · intro h
    have := (c7_literal_anchored (s2l "/a.b") (s2l "/axb") (by decide)).mp h
    exact absurd this (by decide)

/-- C8 counterexample: the claim says a placeholder matches any run of
non-`/` characters including the empty run, but the compiled group is
`[^/]+`, which requires at least one character: for pattern `/user/:id`
the path `/user/` (empty run in the placeholder position) does not match. -/
theorem c8_counterexample :
    rmatch (tokenize (s2l "/user/:id")) (s2l "/user/") = none := by decide

/-- C8 (amended): a `:name` placeholder matches any nonempty run of
non-`/` characters at its position and captures it under the placeholder's
name; the empty run does not match.  Stated for the pattern `/user/:id`:
for every nonempty run `s` of non-`/` characters the matcher succeeds on
`/user/` ++ `s` capturing `id = s`. -/
theorem c8_placeholder_nonempty (s : List Char) (hne : s ≠ [])
    (hs : ∀ c ∈ s, c ≠ '/') :
    rmatch (tokenize (s2l "/user/:id")) (s2l "/user/" ++ s) = some [(s2l "id", s)] :=
  rmatch_user_pattern s hne hs

/-- Witness for the amended C8 at the run `42`. -/
theorem c8_placeholder_nonempty_witness :
    rmatch (tokenize (s2l "/user/:id")) (s2l "/user/42") = some [(s2l "id", s2l "42")] :=
  c8_placeholder_nonempty (s2l "42") (by decide) (by decide)

/-- C10: a redirect pattern containing two or more `*` tokens compiles to a
regular expression with two capture groups both named `splat`, and the
`RegExp` constructor rejects duplicate named groups, so pattern compilation
fails at plugin initialization instead of producing a matcher. -/
theorem c10_duplicate_splat (p : List Char) (hp : 2 ≤ p.count '*') :
    compilePattern p = none := by
  have hle : p.count '*' ≤ (groupNames (tokenize p)).count splatName := by
    rw [tokenize]
    exact count_star_le_splat p.length p le_rfl
  have h2 : 2 ≤ (groupNames (tokenize p)).count splatName := le_trans hp hle
  have hsub : List.Sublist (List.replicate 2 splatName) (groupNames (tokenize p)) :=
    List.le_count_iff_replicate_sublist.mp h2
  have hnd : ¬ (groupNames (tokenize p)).Nodup := by
    intro hn
    have := hn.sublist hsub
    simp at this
  simp [compilePattern, hnd]

/-- Witness for C10 at the pattern `/a*b*`. -/
theorem c10_duplicate_splat_witness :
    2 ≤ (s2l "/a*b*").count '*' ∧ compilePattern (s2l "/a*b*") = none :=
  ⟨by decide, c10_duplicate_splat (s2l "/a*b*") (by decide)⟩

/-- C3: redirect resolution walks the rules in declaration order and the
first rule whose matcher succeeds (producing target `t`) fully determines
the outcome: the resolver returns exactly the Page Resolver's answer for
the slash-prefixed, `.html`-stripped target, for every choice of the later
rules `post` and of the filesystem — in particular when the derived page
does not exist the resolver returns nothing without consulting later
rules. -/
theorem c3_first_match_wins (fs : List Char → Bool) (root pagesRoot : List Char)
    (pre : List Rule) (r : Rule) (post : List Rule) (url t : List Char)
    (hpre : ∀ r' ∈ pre, ruleMatch r' url = none) (hr : ruleMatch r url = some t) :
    resolveRedirect fs root pagesRoot (pre ++ r :: post) url
      = resolvePageUrl fs root pagesRoot (stripHtmlSuffix (withLeadingSlash t)) := by
  induction pre with
  | nil =>
    simp only [List.nil_append, resolveRedirect, hr]
    rw [if_neg (ruleMatch_ne_nil hr)]
  | cons p' pre ih =>
    have hp' := hpre p' (List.mem_cons_self ..)
    simp only [List.cons_append, resolveRedirect, hp']
    exact ih fun r' h => hpre r' (List.mem_cons_of_mem _ h)

/-- Witness for C3: rule `/x` with target `/y` is declared before another
rule matching `/x` with target `/z`; page `/y` does not exist, and the
resolver returns nothing instead of trying the later rule. -/
theorem c3_first_match_wins_witness :
    resolveRedirect (fun _ => false) (s2l "/p") (s2l "src/pages")
      [⟨s2l "/a", s2l "/t"⟩, ⟨s2l "/x", s2l "/y"⟩, ⟨s2l "/x", s2l "/z"⟩] (s2l "/x") =
      none := by
  have h := c3_first_match_wins (fun _ => false) (s2l "/p") (s2l "src/pages")
    [⟨s2l "/a", s2l "/t"⟩] ⟨s2l "/x", s2l "/y"⟩ [⟨s2l "/x", s2l "/z"⟩] (s2l "/x") (s2l "/y")
    (by decide) (by decide)
  exact h.trans (by decide)

/-- C4 counterexample: for the rule `/user/:id` with target
`/user-page?id=:id` on path `/user/42`, the page probed on disk is not
`<pagesRoot>/user-page.html` as the claim states: with exactly
`<root>/src/pages/user-page.html` on disk the resolver finds nothing,
because the query text of the substituted target stays part of the
probed filename. -/
theorem c4_counterexample :
    resolveRedirect (fun q => q == s2l "/p/src/pages/user-page.html") (s2l "/p")
        (s2l "src/pages") [⟨s2l "/user/:id", s2l "/user-page?id=:id"⟩] (s2l "/user/42") =
      none := by decide

/-- C4 (amended): matching `/user/42` yields intermediate target
`/user-page?id=42` as claimed, but the trailing-`.html` stripping and the
page lookup are applied to the whole substituted target including its
query text: the file probed on disk is
`<root>/<pagesRoot>/user-page?id=42.html`, and only when that file exists
does the resolver return `/src/pages/user-page?id=42`. -/
theorem c4_query_target_probe :
    ruleMatch ⟨s2l "/user/:id", s2l "/user-page?id=:id"⟩ (s2l "/user/42") =
      some (s2l "/user-page?id=42") ∧
    resolveRedirect (fun q => q == s2l "/p/src/pages/user-page?id=42.html") (s2l "/p")
        (s2l "src/pages") [⟨s2l "/user/:id", s2l "/user-page?id=:id"⟩] (s2l "/user/42") =
      some (s2l "/src/pages/user-page?id=42") :=
  ⟨by decide, by decide⟩

/-- C6 counterexample: the substitution inserts the captured value through
JavaScript replacement-string semantics, not verbatim: for rule
`/user/:id` with target `/p?id=:id` and path `/user/$&`, the captured
value `$&` expands to the matched token `:id`, so the result is
`/p?id=:id` rather than the verbatim `/p?id=$&`. -/
theorem c6_counterexample :
    ruleMatch ⟨s2l "/user/:id", s2l "/p?id=:id"⟩ (s2l "/user/$&") =
      some (s2l "/p?id=:id") ∧
    s2l "/p?id=:id" ≠ s2l "/p?id=$&" :=
  ⟨by decide, by decide⟩

/-- C6 (amended): substitution replaces every whole `:name` token (here
both `:id` occurrences, never the `:id` inside `:idx`), globally, and the
captured value is inserted verbatim provided it contains no `$`
(replacement-pattern) character: for every nonempty capture `v` without
`/` and `$`, the matcher on `/user/` ++ `v` returns the target
`:id-:id-:idx` with both `:id` tokens replaced by `v`. -/
theorem c6_substitution (v : List Char) (hne : v ≠ [])
    (hv : ∀ c ∈ v, c ≠ '/' ∧ c ≠ '$') :
    ruleMatch ⟨s2l "/user/:id", s2l ":id-:id-:idx"⟩ (s2l "/user/" ++ v) =
      some (v ++ '-' :: v ++ s2l "-:idx") := by
  have hslash : ∀ c ∈ v, c ≠ '/' := fun c hc => (hv c hc).1
  have hdollar : ∀ c ∈ v, c ≠ '$' := fun c hc => (hv c hc).2
  have hmatch := rmatch_user_pattern v hne hslash
  simp only [ruleMatch] at hmatch ⊢
  rw [hmatch]
  simp only [Option.map_some', Option.some.injEq]
  have hsub : substGroups [(s2l "id", v)] (s2l ":id-:id-:idx") =
      v ++ '-' :: v ++ s2l "-:idx" := by
    simp [substGroups, jsReplaceTok, replTokGoF,
      expandDollar_of_no_dollar _ _ _ v hdollar, boundaryOk, jsWordChar, s2l,
      List.isPrefixOf]
  rw [hsub]
  have htail : s2l "-:idx" = ['-', ':', 'i', 'd', 'x'] := rfl
  apply posixNormalize_no_slash
  · simp
  · intro c hc
    rcases List.mem_append.mp hc with h | h
    · rcases List.mem_append.mp h with h1 | h1
      · exact hslash c h1
      · rcases List.mem_cons.mp h1 with h2 | h2
        · subst h2
          decide
        · exact hslash c h2
    · rw [htail] at h
      simp at h
      rcases h with rfl | rfl | rfl | rfl | rfl <;> decide
  · intro heq
    have hl := congrArg List.length heq
    rw [htail] at hl
    simp at hl
    omega
  · intro heq
    have hl := congrArg List.length heq
    rw [htail] at hl
    simp at hl
    omega

/-- C1 counterexample: the claim says the original query string is
preserved on rewrite, but the middleware destructures
`req.url.split("?")` into its first two slots, so for
`/contact?a?b` (query string `a?b`) only `a` survives: the rewritten url is
`/src/pages/contact?a`, not `/src/pages/contact?a?b`. -/
theorem c1_counterexample :
    middleware (fun q => q == s2l "/p/src/pages/contact.html") (s2l "/p") (s2l "src/pages")
        [] ⟨s2l "/contact?a?b", some (s2l "document"), none⟩ =
      s2l "/src/pages/contact?a" ∧
    s2l "/src/pages/contact?a" ≠ s2l "/src/pages/contact?a?b" :=
  ⟨by decide, by decide⟩

/-- C1 (amended): for a request with `sec-fetch-dest: document` the Router
first applies the Redirect Resolver to the path before the first `?`; on
success the url becomes that result plus the query (the text between the
first and second `?`; anything after a second `?` is dropped) and the Page
Resolver is not consulted; otherwise the Page Resolver is applied and on
success the url is rewritten the same way; otherwise the url is left
unchanged. -/
theorem c1_document_routing (fs : List Char → Bool) (root pagesRoot : List Char)
    (rules : List Rule) (req : Req) (hd : req.secFetchDest = some (s2l "document")) :
    (∀ r, resolveRedirect fs root pagesRoot rules (splitQ req.url).1 = some r →
        middleware fs root pagesRoot rules req = r ++ qSuffix (splitQ req.url).2) ∧
    (resolveRedirect fs root pagesRoot rules (splitQ req.url).1 = none →
      ∀ p, resolvePageUrl fs root pagesRoot (splitQ req.url).1 = some p →
        middleware fs root pagesRoot rules req = p ++ qSuffix (splitQ req.url).2) ∧
    (resolveRedirect fs root pagesRoot rules (splitQ req.url).1 = none →
      resolvePageUrl fs root pagesRoot (splitQ req.url).1 = none →
      middleware fs root pagesRoot rules req = req.url) := by
  refine ⟨?_, ?_, ?_⟩
  · intro r hr
    simp [middleware, hd, hr]
  · intro hnone p hp
    simp [middleware, hd, hnone, hp]
  · intro hnone hpage
    simp [middleware, hd, hnone, hpage]

/-- Witness for the amended C1: a document request for `/contact?x` with no
redirect rules is rewritten to `/src/pages/contact?x`. -/
theorem c1_document_routing_witness :
    middleware (fun q => q == s2l "/p/src/pages/contact.html") (s2l "/p") (s2l "src/pages")
        [] ⟨s2l "/contact?x", some (s2l "document"), none⟩ = s2l "/src/pages/contact?x" := by
  have h := (c1_document_routing (fun q => q == s2l "/p/src/pages/contact.html") (s2l "/p")
    (s2l "src/pages") [] ⟨s2l "/contact?x", some (s2l "document"), none⟩ rfl).2.1
    rfl (s2l "/src/pages/contact") (by decide)
  exact h.trans (by decide)

/-- C2: for a sub-resource request (truthy `sec-fetch-dest` other than
`document`, referer present, path not under `/@vite/`) whose referrer
resolves to a page URL, the request path is rewritten to the referrer
page's directory concatenated with the original path exactly when that
computed file exists on disk and no file exists at the original path;
otherwise — in particular when the top-level file also exists — the
request is forwarded unchanged. -/
theorem c2_asset_precedence (fs : List Char → Bool) (root pagesRoot : List Char)
    (rules : List Rule) (req : Req) (d rp pageUrl : List Char)
    (hd : req.secFetchDest = some d) (hdoc : d ≠ s2l "document") (hne : d ≠ [])
    (href : req.refererPath = some rp)
    (hvite : (s2l "/@vite/").isPrefixOf (splitQ req.url).1 = false)
    (hres : (resolveRedirect fs root pagesRoot rules rp).orElse
        (fun _ => resolvePageUrl fs root pagesRoot rp) = some pageUrl) :
    (fs (pathJoin2 root (splitQ req.url).1) = false ∧
        fs (pathJoin2 root (dirPart pageUrl ++ (splitQ req.url).1)) = true →
      middleware fs root pagesRoot rules req =
        (dirPart pageUrl ++ (splitQ req.url).1) ++ qSuffix (splitQ req.url).2) ∧
    (fs (pathJoin2 root (splitQ req.url).1) = true ∨
        fs (pathJoin2 root (dirPart pageUrl ++ (splitQ req.url).1)) = false →
      middleware fs root pagesRoot rules req = req.url) := by
  constructor
  · rintro ⟨h1, h2⟩
    simp [middleware, hd, hdoc, hne, href, hvite, hres, h1, h2]
  · intro h
    rcases h with h1 | h2
    · simp [middleware, hd, hdoc, hne, href, hvite, hres, h1]
    · by_cases h1 : fs (pathJoin2 root (splitQ req.url).1) = true
      · simp [middleware, hd, hdoc, hne, href, hvite, hres, h1]
      · have h1' : fs (pathJoin2 root (splitQ req.url).1) = false :=
          Bool.eq_false_iff.mpr h1
        simp [middleware, hd, hdoc, hne, href, hvite, hres, h1', h2]

/-- Witness for C2: an `image` request for `/logo.png` referred by
`/contact`; when only the page-relative file exists the url is rewritten
to `/src/pages/logo.png`, and when the top-level file also exists the url
is left `/logo.png`. -/
theorem c2_asset_precedence_witness :
    middleware (fun q => q == s2l "/p/src/pages/contact.html" ||
        q == s2l "/p/src/pages/logo.png") (s2l "/p") (s2l "src/pages") []
      ⟨s2l "/logo.png", some (s2l "image"), some (s2l "/contact")⟩ =
      s2l "/src/pages/logo.png" ∧
    middleware (fun q => q == s2l "/p/src/pages/contact.html" ||
        q == s2l "/p/src/pages/logo.png" || q == s2l "/p/logo.png") (s2l "/p")
      (s2l "src/pages") []
      ⟨s2l "/logo.png", some (s2l "image"), some (s2l "/contact")⟩ = s2l "/logo.png" := by
  constructor
  · have h := (c2_asset_precedence
      (fun q => q == s2l "/p/src/pages/contact.html" || q == s2l "/p/src/pages/logo.png")
      (s2l "/p") (s2l "src/pages") []
      ⟨s2l "/logo.png", some (s2l "image"), some (s2l "/contact")⟩
      (s2l "image") (s2l "/contact") (s2l "/src/pages/contact")
      rfl (by decide) (by decide) rfl (by decide) (by decide)).1 ⟨by decide, by decide⟩
    exact h.trans (by decide)
  · have h := (c2_asset_precedence
      (fun q => q == s2l "/p/src/pages/contact.html" || q == s2l "/p/src/pages/logo.png" ||
        q == s2l "/p/logo.png")
      (s2l "/p") (s2l "src/pages") []
      ⟨s2l "/logo.png", some (s2l "image"), some (s2l "/contact")⟩
      (s2l "image") (s2l "/contact") (s2l "/src/pages/contact")
      rfl (by decide) (by decide) rfl (by decide) (by decide)).2 (Or.inl (by decide))
    exact h

/-- C5 counterexample: the flattening loop only touches entries of type
`asset` — a chunk entry recorded under `<pagesRoot>/` is left untouched,
contradicting the claim's "every generated output file". -/
theorem c5_counterexample :
    flattenBundle (s2l "src/pages") [⟨OutType.chunk, s2l "src/pages/x.js"⟩] =
      [⟨OutType.chunk, s2l "src/pages/x.js"⟩] ∧
    s2l "src/pages/x.js" ≠ s2l "x.js" :=
  ⟨by decide, by decide⟩

/-- C5 (amended): for every output entry of type `asset` whose recorded
path starts with `<pagesRoot>/`, the flattener removes exactly the prefix
of length `pagesRoot.length + 1` — prepending `<pagesRoot>/` to the result
recovers the original path — while entries without that prefix and entries
of type `chunk` are left untouched. -/
theorem c5_flatten_exact (pagesRoot : List Char) (f : OutFile) :
    (f.ftype = OutType.asset → (pagesRoot ++ ['/']).isPrefixOf f.fileName = true →
      (flattenFile pagesRoot f).fileName = f.fileName.drop (pagesRoot.length + 1) ∧
      pagesRoot ++ '/' :: (flattenFile pagesRoot f).fileName = f.fileName) ∧
    ((pagesRoot ++ ['/']).isPrefixOf f.fileName = false → flattenFile pagesRoot f = f) ∧
    (f.ftype = OutType.chunk → flattenFile pagesRoot f = f) := by
  refine ⟨?_, ?_, ?_⟩
  · intro ha hp
    have hcond : f.ftype = OutType.asset ∧
        (pagesRoot ++ ['/']).isPrefixOf f.fileName = true := And.intro ha hp
    unfold flattenFile
    rw [if_pos hcond]
    refine ⟨rfl, ?_⟩
    have hpre : (pagesRoot ++ ['/']).IsPrefix f.fileName := by
      rw [← List.isPrefixOf_iff_prefix]
      exact hp
    obtain ⟨t, ht⟩ := hpre
    have hlen : (pagesRoot ++ ['/']).length = pagesRoot.length + 1 := by simp
    rw [← ht, ← hlen, List.drop_left]
    simp
  · intro hp
    unfold flattenFile
    rw [if_neg]
    rintro ⟨_, hh⟩
    rw [hp] at hh
    cases hh
  · intro hc
    unfold flattenFile
    rw [if_neg]
    rintro ⟨ha, _⟩
    rw [hc] at ha
    cases ha

/-- Witness for the amended C5: the emitted page asset
`src/pages/contact/index.html` is relocated to `contact/index.html`. -/
theorem c5_flatten_exact_witness :
    (flattenFile (s2l "src/pages")
        ⟨OutType.asset, s2l "src/pages/contact/index.html"⟩).fileName =
      s2l "contact/index.html" := by
  have h := (c5_flatten_exact (s2l "src/pages")
    ⟨OutType.asset, s2l "src/pages/contact/index.html"⟩).1 rfl (by decide)
  exact h.1.trans (by decide)

/-- C9 counterexample: flattening is not idempotent on every reachable
output manifest: a page on disk at
`<root>/src/pages/src/pages/x.html` is emitted and lands (after one
flattening) at output path `src/pages/x.html`, which a second flattening
pass strips again to `x.html` — so running the flattening twice differs
from running it once, contradicting the idempotence claim. -/
theorem c9_counterexample :
    flattenBundle (s2l "src/pages")
        (flattenBundle (s2l "src/pages")
          (bundleOfPages
            (emitIds [s2l "/p/src/pages/src/pages/x.html"] (s2l "/p") (s2l "src/pages")))) ≠
      flattenBundle (s2l "src/pages")
        (bundleOfPages
          (emitIds [s2l "/p/src/pages/src/pages/x.html"] (s2l "/p") (s2l "src/pages"))) := by
  decide

/-- C9 (amended): a second emission of an unchanged page set registers the
same entries (emission is a pure function of the disk), and a second
flattening pass is the identity on the flattened manifest provided no
flattened asset path itself begins with `<pagesRoot>/` again — that is,
provided no page lives under a nested `<pagesRoot>/<pagesRoot>/` source
path. -/
theorem c9_flatten_idempotent (pagesRoot : List Char) (b : List OutFile)
    (h : ∀ f ∈ b, f.ftype = OutType.asset →
      (pagesRoot ++ ['/']).isPrefixOf f.fileName = true →
      (pagesRoot ++ ['/']).isPrefixOf (f.fileName.drop (pagesRoot.length + 1)) = false) :
    flattenBundle pagesRoot (flattenBundle pagesRoot b) = flattenBundle pagesRoot b := by
  induction b with
  | nil => rfl
  | cons f rest ih =>
    have hf := h f (List.mem_cons_self ..)
    have hrest := ih fun g hg => h g (List.mem_cons_of_mem _ hg)
    simp only [flattenBundle, List.map_cons] at hrest ⊢
    have hhead : flattenFile pagesRoot (flattenFile pagesRoot f) = flattenFile pagesRoot f := by
      by_cases hc : f.ftype = OutType.asset ∧ (pagesRoot ++ ['/']).isPrefixOf f.fileName = true
      · obtain ⟨ha, hp⟩ := hc
        have hstop := hf ha hp
        have hcond : f.ftype = OutType.asset ∧
            (pagesRoot ++ ['/']).isPrefixOf f.fileName = true := And.intro ha hp
        unfold flattenFile
        rw [if_pos hcond, if_neg]
        rintro ⟨_, hh⟩
        rw [hstop] at hh
        cases hh
      · have hid : flattenFile pagesRoot f = f := by
          unfold flattenFile
          rw [if_neg hc]
        rw [hid, hid]
    rw [hhead]
    exact congrArg _ hrest

/-- Witness for the amended C9 on a conventional page set: flattening the
manifest of `src/pages/contact.html` twice equals flattening it once. -/
theorem c9_flatten_idempotent_witness :
    flattenBundle (s2l "src/pages")
        (flattenBundle (s2l "src/pages") [⟨OutType.asset, s2l "src/pages/contact.html"⟩]) =
      flattenBundle (s2l "src/pages") [⟨OutType.asset, s2l "src/pages/contact.html"⟩] :=
  c9_flatten_idempotent (s2l "src/pages") [⟨OutType.asset, s2l "src/pages/contact.html"⟩]
    (by decide)

/-- Witness for the amended C6 at the capture `42`: both `:id` tokens are
replaced, the `:idx` token is untouched. -/
theorem c6_substitution_witness :
    ruleMatch ⟨s2l "/user/:id", s2l ":id-:id-:idx"⟩ (s2l "/user/42") =
      some (s2l "42-42-:idx") := by
  have h := c6_substitution (s2l "42") (by decide) (by decide)
  exact h.trans (by decide)
